import Mathlib

/-!
# Verification of the custodia local HTTP gateway

Shallow embedding of `custodia/httpd/server.py`: the server construction
check (`ForkingLocalHTTPServer.__init__`), the request pipeline
(`ForkingLocalHTTPServer.pipeline`) with its authentication gate and
path-walking consumer router, body parsing
(`LocalHTTPRequestHandler.parse_body`) and the relevant part of
`LocalHTTPRequestHandler.handle_one_request`.

Python strings are modelled as `List Char`; Python dict entries relevant
to control flow are explicit fields; byte streams are `List Nat`.
The router's `while` loop is modelled with explicit fuel plus a progress
guard: the guard can only fail when `os.path.split` returns its argument
unchanged, in which case the Python loop repeats the same state forever
(see `os_path_split_fixpoint_of_no_progress`), so the `.diverge` marker
denotes genuine non-termination of the source loop.
-/

/-- A Python runtime value, as far as the pipeline inspects one.  The
check `request['valid_auth'] is not True` is an identity check against
the boolean `True`, so `1 == True` in Python still fails it; modelling
booleans and integers as distinct constructors captures that. -/
inductive PyVal where
  | pTrue
  | pFalse
  | pNone
  | pInt (n : Int)
  | pStr (s : List Char)
deriving DecidableEq

/-- Header block: association list of (name, value), as parsed strings. -/
abbrev Headers := List (List Char × List Char)

/-- The mutable request dict built in `handle_one_request` (lines
232-239) and threaded through the pipeline.  `validAuth` models the
optional `'valid_auth'` key and `trail` the optional `'trail'` key;
both are absent from the dict as initially built.  `path` is optional
because the pipeline reads it with `request.get('path', '')`. -/
structure Request where
  creds : PyVal
  command : List Char
  path : Option (List Char)
  query : PyVal
  url : PyVal
  version : List Char
  headers : List (List Char × List Char)
  body : Option (List Nat)
  validAuth : Option PyVal
  trail : Option (List (List Char))
deriving DecidableEq

/-- The request dict literal of `handle_one_request` lines 232-239: the
keys are exactly creds, command, path, query, url, version, headers and
body; neither `'valid_auth'` nor `'trail'` is present. -/
def mkRequest (creds : PyVal) (command : List Char) (path : List Char)
    (query : PyVal) (url : PyVal) (version : List Char)
    (headers : List (List Char × List Char)) (body : Option (List Nat)) : Request :=
  { creds := creds, command := command, path := some path, query := query,
    url := url, version := version, headers := headers, body := body,
    validAuth := none, trail := none }

/-- A consumer plugin's `handle(request)`; Python lets it return any
object or `None`, and `handle_one_request` checks for `None`. -/
abbrev ConsumerResp := Option (List (List Char × PyVal))

/-- Consumer capability: `con.handle(request)`. -/
abbrev Consumer := Request → ConsumerResp

/-- Authenticator capability: `auth.handle(request)` mutates the request
dict in place, modelled as a function on requests. -/
abbrev Auth := Request → Request

/-- The configuration held by the server after construction: the
`'consumers'` key is guaranteed present by `__init__`; `'authenticators'`
may be absent (`none`).  Registries are association lists in insertion
order (Python dicts iterate in insertion order). -/
structure Config where
  consumers : List (List Char × Consumer)
  authenticators : Option (List (List Char × Auth))
  server_string : List Char

/-- The raw config dict passed to `ForkingLocalHTTPServer.__init__`:
each key may be absent. -/
structure RawConfig where
  consumers : Option (List (List Char × Consumer))
  authenticators : Option (List (List Char × Auth))
  server_string : Option (List Char)

/-- The `ValueError` message raised by `__init__` (line 80). -/
def noConsumerMsg : List Char := "Configuration does not provide any consumer".data

/-- Default `server_string` class attribute (line 73). -/
def defaultServerString : List Char := "Custodia/0.1".data

/-- Model of `ForkingLocalHTTPServer.__init__` (lines 77-83): raises `ValueError`
iff the `'consumers'` key is absent from the config dict; the value
stored under that key is never inspected.  `server_string` is overridden
when the key is present. -/
def server_init (config : RawConfig) : Except (List Char) Config :=
  match config.consumers with
  | none => .error noConsumerMsg
  | some cs =>
      .ok { consumers := cs,
            authenticators := config.authenticators,
            server_string := (config.server_string).getD defaultServerString }

/-- Model of `os.path.isabs` on POSIX: `s.startswith('/')`. -/
def os_path_isabs : List Char → Bool
  | [] => false
  | c :: _ => c == '/'

/-- Model of `os.path.split` on POSIX (`posixpath.split`):
`i = p.rfind('/') + 1; head, tail = p[:i], p[i:]`, then
`if head and head != '/'*len(head): head = head.rstrip('/')`.
The tail (the longest slash-free suffix) and the raw head are obtained
by `takeWhile` / `dropWhile` on the reversed string. -/
def os_path_split (p : List Char) : List Char × List Char :=
  let tl := (p.reverse.takeWhile (fun c => c != '/')).reverse
  let headRaw := (p.reverse.dropWhile (fun c => c != '/')).reverse
  let head :=
    if headRaw.isEmpty || headRaw.all (fun c => c == '/') then headRaw
    else (headRaw.reverse.dropWhile (fun c => c == '/')).reverse
  (head, tl)

/-- Association-list lookup, modelling `path in consumers` /
`consumers[path]` on a dict (keys are unique in a Python dict, so the
first binding is the binding). -/
def lookupCon : List (List Char × Consumer) → List Char → Option Consumer
  | [], _ => none
  | (k, c) :: rest, key => if k = key then some c else lookupCon rest key

/-- Result of the consumer-selection loop (lines 105-119). -/
inductive RouteOut where
  | found (con : Consumer) (req : Request)
  | notFound
  | diverge

/-- The consumer-selection `while` loop of `pipeline` (lines 105-119),
with fuel.  One unit of fuel is one loop iteration.  The guard
`(os_path_split path).1.length < path.length` holds whenever the source
loop makes progress; when it fails, `os.path.split` returned its
argument unchanged (see `os_path_split_fixpoint_of_no_progress`) and the
Python loop repeats the same state forever, which `.diverge` records.
The caller supplies fuel `path.length + 1`, which is always sufficient
because every iteration shortens the path by at least one character. -/
def walkFuel (consumers : List (List Char × Consumer)) :
    Nat → List (List Char) → List Char → Request → RouteOut
  | 0, _, _, _ => .diverge
  | fuel + 1, trail, path, req =>
    if path = [] then .notFound
    else
      match lookupCon consumers path with
      | some con =>
          .found con (if trail.isEmpty then req else { req with trail := some trail })
      | none =>
          if path = ['/'] then walkFuel consumers fuel trail [] req
          else
            let pr := os_path_split path
            if pr.1.length < path.length then walkFuel consumers fuel (pr.2 :: trail) pr.1 req
            else .diverge

/-- Outcome of `pipeline`: a returned response, a raised `HTTPError`, or
non-termination of the selection loop. -/
inductive PipeOut where
  | ok (resp : ConsumerResp)
  | httpError (code : Nat)
  | diverge
deriving DecidableEq

/-- Model of `for auth in authers: authers[auth].handle(request)` (lines 95-96):
every configured authenticator is applied, in registry order, to the
(mutated) request; there is no short-circuit. -/
def applyAuths (authers : List (List Char × Auth)) (req : Request) : Request :=
  authers.foldl (fun r a => a.2 r) req

/-- Model of `ForkingLocalHTTPServer.pipeline` (lines 89-119).  Returns the
outcome together with the final state of the (mutated) request dict. -/
def pipeline (cfg : Config) (req : Request) : PipeOut × Request :=
  match cfg.authenticators with
  | none => (.httpError 403, req)
  | some authers =>
    let req1 := applyAuths authers req
    if req1.validAuth ≠ some PyVal.pTrue then (.httpError 403, req1)
    else
      let path := (req1.path).getD []
      if os_path_isabs path = false then (.httpError 400, req1)
      else
        match walkFuel cfg.consumers (path.length + 1) [] path req1 with
        | .found con r2 => (.ok (con r2), r2)
        | .notFound => (.httpError 404, req1)
        | .diverge => (.diverge, req1)

/-- The routing stage of `pipeline` (lines 100-119), as a standalone
function: path-format check then the selection loop. -/
def routeStage (cfg : Config) (r : Request) : PipeOut × Request :=
  let path := (r.path).getD []
  if os_path_isabs path = false then (.httpError 400, r)
  else
    match walkFuel cfg.consumers (path.length + 1) [] path r with
    | .found con r2 => (.ok (con r2), r2)
    | .notFound => (.httpError 404, r)
    | .diverge => (.diverge, r)

/-- The body cap `MAX_REQUEST_SIZE` (line 23). -/
def MAX_REQUEST_SIZE : Nat := 10 * 1024 * 1024

/-- Exceptions a body parse can raise: a structured `HTTPError`, or the
`ValueError` that `int()` raises on a malformed string. -/
inductive PyErr where
  | httpError (code : Nat)
  | valueError
deriving DecidableEq

instance {ε α : Type} [DecidableEq ε] [DecidableEq α] : DecidableEq (Except ε α) := fun
  | .ok a, .ok b =>
      if h : a = b then .isTrue (by rw [h]) else .isFalse (by intro hc; cases hc; exact h rfl)
  | .error a, .error b =>
      if h : a = b then .isTrue (by rw [h]) else .isFalse (by intro hc; cases hc; exact h rfl)
  | .ok _, .error _ => .isFalse (by intro hc; cases hc)
  | .error _, .ok _ => .isFalse (by intro hc; cases hc)

/-- Python whitespace stripped by `int(str)`. -/
def pyIsSpace (c : Char) : Bool :=
  c == ' ' || c == '\t' || c == '\n' || c == '\x0b' || c == '\x0c' || c == '\r'

/-- Digit run with optional single underscores between digits, after the
first digit has been consumed into `acc` (CPython's integer literal
grammar for `int(str)`). -/
def pyDigits : List Char → Nat → Option Nat
  | [], acc => some acc
  | '_' :: c :: rest, acc =>
      if c.isDigit then pyDigits rest (acc * 10 + (c.toNat - 48)) else none
  | '_' :: [], _ => none
  | c :: rest, acc =>
      if c.isDigit then pyDigits rest (acc * 10 + (c.toNat - 48)) else none

/-- Nonempty digit run (first character must be a digit). -/
def pyDigitsNN : List Char → Option Nat
  | [] => none
  | c :: rest => if c.isDigit then pyDigits rest (c.toNat - 48) else none

/-- Model of `int(s)` for a string `s`: strip whitespace, optional sign, decimal
digits with optional single underscores between them; `none` models the
`ValueError` raised on any other input. -/
def pyInt? (s : List Char) : Option Int :=
  let t := ((s.dropWhile pyIsSpace).reverse.dropWhile pyIsSpace).reverse
  match t with
  | '+' :: rest => (pyDigitsNN rest).map Int.ofNat
  | '-' :: rest => (pyDigitsNN rest).map (fun n => -(n : Int))
  | rest => (pyDigitsNN rest).map Int.ofNat

/-- Case-insensitive header lookup: `self.headers.get(name)` on an
`email.message.Message` compares header names case-insensitively. -/
def headerGet : List (List Char × List Char) → List Char → Option (List Char)
  | [], _ => none
  | (k, v) :: rest, key =>
      if k.map Char.toLower = key.map Char.toLower then some v else headerGet rest key

/-- The header name `'content-length'`. -/
def contentLengthKey : List Char := "content-length".data

/-- Model of `file.read(n)`: for non-negative `n` reads (up to) `n` bytes; for
negative `n` reads everything to EOF. -/
def pyRead (rfile : List Nat) (n : Int) : List Nat :=
  if n < 0 then rfile else rfile.take n.toNat

/-- Model of `LocalHTTPRequestHandler.parse_body` (lines 196-203).  Returns the
outcome (`self.body`: `none` models `None`) together with the number of
bytes consumed from `rfile`; the 413 branch raises before any read, so
it consumes 0 bytes. -/
def parse_body (headers : List (List Char × List Char)) (rfile : List Nat) :
    Except PyErr (Option (List Nat)) × Nat :=
  match headerGet headers contentLengthKey with
  | none =>
      -- headers.get('content-length', 0) returns the int 0; int(0) = 0
      (.ok none, 0)
  | some s =>
      match pyInt? s with
      | none => (.error .valueError, 0)
      | some length =>
          if (MAX_REQUEST_SIZE : Int) < length then (.error (.httpError 413), 0)
          else if length = 0 then (.ok none, 0)
          else (.ok (some (pyRead rfile length)), (pyRead rfile length).length)

/-- Predicate: `p` ends with a character other than `'/'` (in particular `p` is
nonempty).  Registered consumer prefixes of this shape are returned
unchanged by one peeling step of the router. -/
def endOk (p : List Char) : Bool :=
  match p.reverse with
  | [] => false
  | d :: _ => d != '/'

/-- Predicate: `p` is an absolute path that is either the root or starts with
exactly one slash.  On such paths the router's peeling loop always makes
progress. -/
def absOk : List Char → Bool
  | [] => false
  | [c] => c == '/'
  | c1 :: c2 :: _ => c1 == '/' && c2 != '/'

/-- Observable outcome of the body-parsing and pipeline portion of
`handle_one_request` (lines 226-258). -/
inductive HandlerOutcome where
  | sentError (code : Nat)
  | sent (code : PyVal) (resp : List (List Char × PyVal))
  | uncaughtValueError
  | hang
deriving DecidableEq

/-- Dict `get` with default, for `response.get('code', 200)`. -/
def dictGetD : List (List Char × PyVal) → List Char → PyVal → PyVal
  | [], _, d => d
  | (k, v) :: rest, key, d => if k = key then v else dictGetD rest key d

/-- The body-parsing and pipeline portion of `handle_one_request`
(lines 226-258): `parse_body` inside a `try` that catches only
`HTTPError` (so the `ValueError` from a malformed content-length escapes
uncaught, and no status-coded response is sent); then the request dict
literal; then the pipeline with `HTTPError` mapped to `send_error` and a
`None` response mapped to 500.  Header/body emission (lines 259-271) is
beyond the properties considered here. -/
def handle_parsed (cfg : Config) (creds : PyVal) (command : List Char)
    (path : List Char) (query : PyVal) (url : PyVal) (version : List Char)
    (headers : List (List Char × List Char)) (rfile : List Nat) : HandlerOutcome :=
  match parse_body headers rfile with
  | (.error (.httpError c), _) => .sentError c
  | (.error .valueError, _) => .uncaughtValueError
  | (.ok body, _) =>
    let request := mkRequest creds command path query url version headers body
    match pipeline cfg request with
    | (.httpError c, _) => .sentError c
    | (.diverge, _) => .hang
    | (.ok resp, _) =>
        match resp with
        | none => .sentError 500
        | some r => .sent (dictGetD r ("code".data) (PyVal.pInt 200)) r


/-! ## Facts about the embedded string primitives -/

/-- Equation: `os_path_split` with its local definitions expanded, for rewriting. -/
lemma os_path_split_eq (p : List Char) :
    os_path_split p =
      (if ((p.reverse.dropWhile (fun c => c != '/')).reverse).isEmpty
          || ((p.reverse.dropWhile (fun c => c != '/')).reverse).all (fun c => c == '/')
       then (p.reverse.dropWhile (fun c => c != '/')).reverse
       else ((p.reverse.dropWhile (fun c => c != '/')).reverse.reverse.dropWhile
              (fun c => c == '/')).reverse,
       (p.reverse.takeWhile (fun c => c != '/')).reverse) := rfl

lemma takeWhile_dropWhile_slashfree (v : List Char) :
    ∀ u : List Char, '/' ∉ u →
      (u ++ '/' :: v).takeWhile (fun c => c != '/') = u ∧
      (u ++ '/' :: v).dropWhile (fun c => c != '/') = '/' :: v := by
  intro u
  induction u with
  | nil => intro _; simp [List.takeWhile_cons, List.dropWhile_cons]
  | cons c u ih =>
      intro h
      have hc : c ≠ '/' := fun hc => h (hc ▸ List.mem_cons_self c u)
      have hu : '/' ∉ u := fun hm => h (List.mem_cons_of_mem _ hm)
      obtain ⟨h1, h2⟩ := ih hu
      constructor
      · simpa [List.takeWhile_cons, hc] using h1
      · simpa [List.dropWhile_cons, hc] using h2

lemma dropWhile_head_false (pred : Char → Bool) :
    ∀ {l e : List Char} {c : Char}, l.dropWhile pred = c :: e → pred c = false := by
  intro l
  induction l with
  | nil => intro e c h; simp at h
  | cons a t ih =>
      intro e c h
      rw [List.dropWhile_cons] at h
      by_cases ha : pred a = true
      · rw [if_pos ha] at h; exact ih h
      · rw [if_neg ha] at h
        injection h with h1 _
        subst h1
        simpa using ha

lemma endOk_iff {p : List Char} :
    endOk p = true ↔ ∃ d w, p.reverse = d :: w ∧ d ≠ '/' := by
  unfold endOk
  rcases hrev : p.reverse with _ | ⟨d, w⟩
  · simp
  · simp only [bne_iff_ne, ne_eq]
    constructor
    · intro hd; exact ⟨d, w, rfl, hd⟩
    · rintro ⟨d', w', he, hd'⟩
      injection he with h1 _
      subst h1
      exact hd'

lemma endOk_concat {B s : List Char} (hs : s ≠ []) (hsf : '/' ∉ s) :
    endOk (B ++ '/' :: s) = true := by
  rcases hrs : s.reverse with _ | ⟨d, w⟩
  · exact absurd (by simpa using congrArg List.reverse hrs) hs
  · have hd : d ∈ s := by
      rw [← List.mem_reverse, hrs]; exact List.mem_cons_self d w
    rw [endOk_iff]
    refine ⟨d, w ++ '/' :: B.reverse, ?_, fun hd' => hsf (hd' ▸ hd)⟩
    rw [List.reverse_append, List.reverse_cons, hrs]
    simp

/-- Splitting `B ++ "/" ++ s` with `s` slash-free and `B` not ending in
a slash returns `(B, s)` — the single peeling step of the router. -/
lemma os_path_split_concat {B s : List Char} (hsf : '/' ∉ s) (hB : endOk B = true) :
    os_path_split (B ++ '/' :: s) = (B, s) := by
  obtain ⟨d, w, hrev, hd⟩ := endOk_iff.mp hB
  have hsr : '/' ∉ s.reverse := fun hm => hsf (List.mem_reverse.mp hm)
  have hrw : (B ++ '/' :: s).reverse = s.reverse ++ '/' :: B.reverse := by
    rw [List.reverse_append, List.reverse_cons]
    simp
  obtain ⟨htake, hdrop⟩ := takeWhile_dropWhile_slashfree B.reverse s.reverse hsr
  have hdmem : d ∈ B := by rw [← List.mem_reverse, hrev]; exact List.mem_cons_self d w
  rw [os_path_split_eq, hrw, htake, hdrop, List.reverse_reverse]
  have hraw : ('/' :: B.reverse).reverse = B ++ ['/'] := by
    rw [List.reverse_cons, List.reverse_reverse]
  rw [hraw]
  have hemp : (B ++ ['/']).isEmpty = false := by
    rw [List.isEmpty_eq_false]
    simp
  have hall : (B ++ ['/']).all (fun c => c == '/') = false := by
    rw [List.all_eq_false]
    exact ⟨d, List.mem_append_left _ hdmem, by simpa using hd⟩
  rw [hemp, hall]
  simp only [Bool.or_self, Bool.false_eq_true, if_false]
  rw [List.dropWhile_cons, if_pos (show (('/' : Char) == '/') = true from rfl), hrev,
    List.dropWhile_cons, if_neg (show ¬ ((d == '/') = true) by simpa using hd), ← hrev,
    List.reverse_reverse, List.reverse_reverse]

lemma os_path_split_head_length_le (p : List Char) :
    (os_path_split p).1.length ≤ p.length := by
  rw [os_path_split_eq]
  have h1 : (p.reverse.dropWhile (fun c => c != '/')).reverse.length ≤ p.length := by
    have h0 : p.reverse.dropWhile (fun c => c != '/') <:+ p.reverse :=
      List.dropWhile_suffix _
    simpa using h0.length_le
  by_cases hc : ((p.reverse.dropWhile (fun c => c != '/')).reverse.isEmpty
      || (p.reverse.dropWhile (fun c => c != '/')).reverse.all (fun c => c == '/')) = true
  · dsimp only
    rw [if_pos hc]
    exact h1
  · dsimp only
    rw [if_neg hc]
    have h0 : (p.reverse.dropWhile (fun c => c != '/')).reverse.reverse.dropWhile
        (fun c => c == '/') <:+ (p.reverse.dropWhile (fun c => c != '/')).reverse.reverse :=
      List.dropWhile_suffix _
    have h2 := h0.length_le
    simp only [List.length_reverse] at h1 h2 ⊢
    omega

/-- When the peeling step makes no progress, `os.path.split` returned
its argument unchanged, so the source loop repeats the identical state
forever: the `.diverge` outcome really is non-termination of the source
`while` loop. -/
lemma os_path_split_fixpoint_of_no_progress {p : List Char}
    (h : ¬ (os_path_split p).1.length < p.length) : (os_path_split p).1 = p := by
  have hle := os_path_split_head_length_le p
  have hlen : (os_path_split p).1.length = p.length := le_antisymm hle (le_of_not_lt h)
  rw [os_path_split_eq] at hlen ⊢
  have hqs : p.reverse.dropWhile (fun c => c != '/') <:+ p.reverse :=
    List.dropWhile_suffix _
  by_cases hc : ((p.reverse.dropWhile (fun c => c != '/')).reverse.isEmpty
      || (p.reverse.dropWhile (fun c => c != '/')).reverse.all (fun c => c == '/')) = true
  · dsimp only at hlen ⊢
    rw [if_pos hc] at hlen ⊢
    have hq : p.reverse.dropWhile (fun c => c != '/') = p.reverse := by
      apply hqs.eq_of_length
      simp only [List.length_reverse] at hlen ⊢
      omega
    rw [hq, List.reverse_reverse]
  · dsimp only at hlen ⊢
    rw [if_neg hc] at hlen ⊢
    have hrs : (p.reverse.dropWhile (fun c => c != '/')).reverse.reverse.dropWhile
        (fun c => c == '/') <:+ (p.reverse.dropWhile (fun c => c != '/')).reverse.reverse :=
      List.dropWhile_suffix _
    have hql := hqs.length_le
    have hrl := hrs.length_le
    simp only [List.length_reverse] at hlen hql hrl
    have hr : (p.reverse.dropWhile (fun c => c != '/')).reverse.reverse.dropWhile
        (fun c => c == '/') = (p.reverse.dropWhile (fun c => c != '/')).reverse.reverse := by
      apply hrs.eq_of_length
      simp only [List.length_reverse]
      omega
    have hq : p.reverse.dropWhile (fun c => c != '/') = p.reverse := by
      apply hqs.eq_of_length
      simp only [List.length_reverse]
      omega
    rw [hr, List.reverse_reverse, hq, List.reverse_reverse]

/-! ## The router walk on structured paths -/

/-- Builder: `joinPath B [s1, ..., sn]` is the string `B + "/" + s1 + "/" + ... + "/" + sn`. -/
def joinPath (base : List Char) : List (List Char) → List Char
  | [] => base
  | s :: rest => joinPath (base ++ '/' :: s) rest

lemma joinPath_append (l1 l2 : List (List Char)) :
    ∀ base, joinPath base (l1 ++ l2) = joinPath (joinPath base l1) l2 := by
  induction l1 with
  | nil => intro base; rfl
  | cons s rest ih => intro base; simp only [List.cons_append, joinPath]; exact ih _

lemma joinPath_isPrefix (segs : List (List Char)) :
    ∀ base, base <+: joinPath base segs := by
  induction segs with
  | nil => intro base; exact List.prefix_rfl
  | cons s rest ih =>
      intro base
      exact (List.prefix_append base ('/' :: s)).trans (ih (base ++ '/' :: s))

lemma endOk_joinPath {segs : List (List Char)} (h : ∀ s ∈ segs, s ≠ [] ∧ '/' ∉ s) :
    ∀ base, endOk base = true → endOk (joinPath base segs) = true := by
  induction segs with
  | nil => intro base hb; exact hb
  | cons s rest ih =>
      intro base _
      have hs := h s (List.mem_cons_self s rest)
      have hrest : ∀ t ∈ rest, t ≠ [] ∧ '/' ∉ t :=
        fun t ht => h t (List.mem_cons_of_mem _ ht)
      exact ih hrest (base ++ '/' :: s) (endOk_concat hs.1 hs.2)

lemma joinPath_length_ge (segs : List (List Char)) :
    ∀ base : List Char, base.length + segs.length ≤ (joinPath base segs).length := by
  induction segs with
  | nil => intro base; simp [joinPath]
  | cons s rest ih =>
      intro base
      have := ih (base ++ '/' :: s)
      simp only [joinPath, List.length_append, List.length_cons] at this ⊢
      omega

lemma os_path_isabs_of_isPrefix {a b : List Char} (h : a <+: b) (ha : a ≠ []) :
    os_path_isabs b = os_path_isabs a := by
  obtain ⟨t, rfl⟩ := h
  cases a with
  | nil => exact absurd rfl ha
  | cons c u => rfl

/-- One iteration of the selection loop on a path that is not registered,
not the root, and on which the peeling step makes progress. -/
lemma walkFuel_step_miss {consumers : List (List Char × Consumer)} {fuel : Nat}
    {trail : List (List Char)} {path : List Char} {req : Request}
    (hne : path ≠ []) (hlook : lookupCon consumers path = none) (hnroot : path ≠ ['/'])
    (hprog : (os_path_split path).1.length < path.length) :
    walkFuel consumers (fuel + 1) trail path req =
    walkFuel consumers fuel ((os_path_split path).2 :: trail) (os_path_split path).1 req := by
  simp only [walkFuel]
  rw [if_neg hne, hlook]
  simp only []
  rw [if_neg hnroot, if_pos hprog]

/-- Peeling the trailing well-formed segments off `joinPath B segs`
(none of whose proper extensions by prefixes of `segs` is registered)
brings the walk to `B` with those segments pushed onto the trail, left
to right, consuming one unit of fuel per segment. -/
lemma walkFuel_joinPath (consumers : List (List Char × Consumer)) (B : List Char)
    (hB : endOk B = true) :
    ∀ segs : List (List Char), (∀ s ∈ segs, s ≠ [] ∧ '/' ∉ s) →
      (∀ ss, ss <+: segs → ss ≠ [] → lookupCon consumers (joinPath B ss) = none) →
      ∀ fuel trail req, (joinPath B segs).length < fuel →
        walkFuel consumers fuel trail (joinPath B segs) req =
        walkFuel consumers (fuel - segs.length) (segs ++ trail) B req := by
  intro segs
  induction segs using List.reverseRecOn with
  | nil => intro _ _ fuel trail req _; simp [joinPath]
  | append_singleton ss s ih =>
      intro hseg hmiss fuel trail req hfuel
      have hq : joinPath B (ss ++ [s]) = joinPath B ss ++ '/' :: s := by
        rw [joinPath_append]; rfl
      have hss : ∀ t ∈ ss, t ≠ [] ∧ '/' ∉ t :=
        fun t ht => hseg t (List.mem_append_left _ ht)
      have hs : s ≠ [] ∧ '/' ∉ s :=
        hseg s (List.mem_append_right _ (List.mem_cons_self s []))
      have hB' : endOk (joinPath B ss) = true := endOk_joinPath hss B hB
      rcases fuel with _ | f
      · exact absurd hfuel (Nat.not_lt_zero _)
      rw [hq] at hfuel ⊢
      simp only [List.length_append, List.length_cons] at hfuel
      have hsplit : os_path_split (joinPath B ss ++ '/' :: s) = (joinPath B ss, s) :=
        os_path_split_concat hs.2 hB'
      have hBne : joinPath B ss ≠ [] := by
        obtain ⟨d, w, hrev, _⟩ := endOk_iff.mp hB'
        intro h0
        rw [h0] at hrev
        simp at hrev
      have hne : joinPath B ss ++ '/' :: s ≠ [] := by simp
      have hnroot : joinPath B ss ++ '/' :: s ≠ ['/'] := by
        intro hcontra
        have := congrArg List.length hcontra
        simp only [List.length_append, List.length_cons, List.length_nil] at this
        have hBl : 0 < (joinPath B ss).length := List.length_pos.mpr hBne
        omega
      have hlook : lookupCon consumers (joinPath B ss ++ '/' :: s) = none := by
        have := hmiss (ss ++ [s]) List.prefix_rfl (by simp)
        rwa [hq] at this
      have hprog : (os_path_split (joinPath B ss ++ '/' :: s)).1.length <
          (joinPath B ss ++ '/' :: s).length := by
        rw [hsplit]
        simp only [List.length_append, List.length_cons]
        omega
      have h1 : (ss ++ [s]) ++ trail = ss ++ s :: trail := by simp
      have h2 : f + 1 - (ss ++ [s]).length = f - ss.length := by
        simp only [List.length_append, List.length_cons, List.length_nil]
        omega
      rw [h1, h2]
      rw [walkFuel_step_miss hne hlook hnroot hprog, hsplit]
      have hmiss' : ∀ t, t <+: ss → t ≠ [] → lookupCon consumers (joinPath B t) = none :=
        fun t ht hn => hmiss t (ht.trans (List.prefix_append ss [s])) hn
      have hfl : (joinPath B ss).length < f := by omega
      exact ih hss hmiss' f (s :: trail) req hfl

/-- The selection loop dispatches as soon as the current path is a
registered key (this membership test precedes the root test). -/
lemma walkFuel_step_found {consumers : List (List Char × Consumer)} {fuel : Nat}
    {trail : List (List Char)} {path : List Char} {req : Request} {con : Consumer}
    (hne : path ≠ []) (hlook : lookupCon consumers path = some con) :
    walkFuel consumers (fuel + 1) trail path req =
    .found con (if trail.isEmpty then req else { req with trail := some trail }) := by
  simp only [walkFuel]
  rw [if_neg hne, hlook]

/-- On a path that satisfies `absOk` and is not the root, the peeling
step makes progress and preserves `absOk`. -/
lemma os_path_split_absOk {p : List Char} (h : absOk p = true) (h2 : p ≠ ['/']) :
    absOk (os_path_split p).1 = true ∧ (os_path_split p).1.length < p.length := by
  rcases p with _ | ⟨a, rest⟩
  · simp [absOk] at h
  rcases rest with _ | ⟨b, t⟩
  · have ha : a = '/' := by simpa [absOk] using h
    exact absurd (by rw [ha]) h2
  simp only [absOk, Bool.and_eq_true] at h
  obtain ⟨ha, hb⟩ := h
  have ha' : a = '/' := by simpa using ha
  have hb' : b ≠ '/' := by simpa using hb
  subst ha'
  have hmem : '/' ∈ ('/' :: b :: t).reverse :=
    List.mem_reverse.mpr (List.mem_cons_self _ _)
  have hqne : ('/' :: b :: t).reverse.dropWhile (fun c => c != '/') ≠ [] := by
    intro h0
    have := List.dropWhile_eq_nil_iff.mp h0 '/' hmem
    simp at this
  have hsuf : ('/' :: b :: t).reverse.dropWhile (fun c => c != '/') <:+
      ('/' :: b :: t).reverse := List.dropWhile_suffix _
  obtain ⟨e, u, hq⟩ : ∃ e u,
      ('/' :: b :: t).reverse.dropWhile (fun c => c != '/') = e :: u := by
    rcases h0 : ('/' :: b :: t).reverse.dropWhile (fun c => c != '/') with _ | ⟨e, u⟩
    · exact absurd h0 hqne
    · exact ⟨e, u, rfl⟩
  have he : e = '/' := by
    have := dropWhile_head_false _ hq
    simpa using this
  subst he
  have hpre : ('/' :: u).reverse <+: ('/' :: b :: t) := by
    have := List.reverse_prefix.mpr (hq ▸ hsuf)
    rwa [List.reverse_reverse] at this
  have hql : u.length + 1 ≤ t.length + 2 := by
    have := hsuf.length_le
    rw [hq] at this
    simpa using this
  rw [os_path_split_eq, hq]
  by_cases hall : ('/' :: u).reverse.all (fun c => c == '/') = true
  · have hroot : ('/' :: u).reverse = ['/'] := by
      rcases hqr : ('/' :: u).reverse with _ | ⟨x, xs⟩
      · exfalso
        have h9 := congrArg List.length hqr
        simp only [List.length_reverse, List.length_cons, List.length_nil] at h9
        omega
      · rw [hqr] at hpre
        obtain ⟨hx, hxs⟩ := List.cons_prefix_cons.mp hpre
        subst hx
        rcases xs with _ | ⟨y, ys⟩
        · rfl
        · obtain ⟨hy, _⟩ := List.cons_prefix_cons.mp hxs
          rw [hqr] at hall
          have hbb := List.all_eq_true.mp hall y
            (List.mem_cons_of_mem _ (List.mem_cons_self _ _))
          rw [hy] at hbb
          exact absurd (by simpa using hbb) hb'
    dsimp only
    rw [if_pos (show ((('/' :: u).reverse).isEmpty || ('/' :: u).reverse.all
      (fun c => c == '/')) = true by rw [hroot]; decide)]
    rw [hroot]
    constructor
    · rfl
    · simp only [List.length_cons, List.length_nil]
      omega
  · have hall' : (('/' :: u).reverse.all (fun c => c == '/')) = false :=
      Bool.eq_false_iff.mpr hall
    have hemp2 : ('/' :: u).reverse.isEmpty = false :=
      List.isEmpty_eq_false.mpr (by simp)
    have hif : (('/' :: u).reverse.isEmpty || ('/' :: u).reverse.all
        (fun c => c == '/')) = false := by
      rw [hemp2, hall']
      rfl
    dsimp only
    rw [hif]
    simp only [Bool.false_eq_true, if_false, List.reverse_reverse]
    rw [List.dropWhile_cons, if_pos (show (('/' : Char) == '/') = true from rfl)]
    have hnall : ∃ x ∈ u, (x == '/') = false := by
      obtain ⟨x, hx, hxp⟩ := List.all_eq_false.mp hall'
      have hx' : x ∈ '/' :: u := by
        have := List.mem_reverse.mp hx
        exact this
      rcases List.mem_cons.mp hx' with h0 | h0
      · subst h0; simp at hxp
      · exact ⟨x, h0, Bool.eq_false_iff.mpr hxp⟩
    have hune : u.dropWhile (fun c => c == '/') ≠ [] := by
      intro h0
      obtain ⟨x, hx, hxp⟩ := hnall
      have := List.dropWhile_eq_nil_iff.mp h0 x hx
      rw [this] at hxp
      simp at hxp
    obtain ⟨d, w, hdw⟩ : ∃ d w, u.dropWhile (fun c => c == '/') = d :: w := by
      rcases h0 : u.dropWhile (fun c => c == '/') with _ | ⟨d, w⟩
      · exact absurd h0 hune
      · exact ⟨d, w, rfl⟩
    have hd : (d == '/') = false := dropWhile_head_false (fun c => c == '/') hdw
    have hsu : u.dropWhile (fun c => c == '/') <:+ u := List.dropWhile_suffix _
    have hsq : u <:+ '/' :: u := List.suffix_cons _ _
    have hsp : u.dropWhile (fun c => c == '/') <:+ ('/' :: b :: t).reverse :=
      (hsu.trans hsq).trans (hq ▸ hsuf)
    have hpre2 : (u.dropWhile (fun c => c == '/')).reverse <+: ('/' :: b :: t) := by
      have := List.reverse_prefix.mpr hsp
      rwa [List.reverse_reverse] at this
    constructor
    · rcases hshape : (u.dropWhile (fun c => c == '/')).reverse with _ | ⟨x, xs⟩
      · exact absurd (by simpa using congrArg List.reverse hshape) hune
      · rw [hshape] at hpre2
        obtain ⟨hx, hxs⟩ := List.cons_prefix_cons.mp hpre2
        subst hx
        rcases xs with _ | ⟨y, ys⟩
        · rfl
        · obtain ⟨hy, _⟩ := List.cons_prefix_cons.mp hxs
          simp [absOk, hy, hb']
    · have hl1 : (u.dropWhile (fun c => c == '/')).length ≤ u.length := hsu.length_le
      simp only [List.length_reverse, List.length_cons]
      omega

/-- The chain of candidate paths the selection loop checks against the
registry: the request path and its iterated parents, down to and
including the root, with the same fuel discipline as `walkFuel`. -/
def chainFuel : Nat → List Char → List (List Char)
  | 0, _ => []
  | fuel + 1, path =>
    if path = [] then []
    else path :: (if path = ['/'] then []
      else if (os_path_split path).1.length < path.length
        then chainFuel fuel (os_path_split path).1 else [])

/-- The request path together with every ancestor the router walks
through, root included. -/
def ancestorChain (p : List Char) : List (List Char) := chainFuel (p.length + 1) p

lemma chainFuel_step {f : Nat} {p : List Char} (hne : p ≠ []) (hroot : p ≠ ['/'])
    (hprog : (os_path_split p).1.length < p.length) :
    chainFuel (f + 1) p = p :: chainFuel f (os_path_split p).1 := by
  simp only [chainFuel]
  rw [if_neg hne, if_neg hroot, if_pos hprog]

lemma self_mem_chainFuel {f : Nat} {p : List Char} (hne : p ≠ []) :
    p ∈ chainFuel (f + 1) p := by
  simp only [chainFuel]
  rw [if_neg hne]
  exact List.mem_cons_self _ _

/-- If the path is well-formed (`absOk`) and no candidate in the chain
is registered, the selection loop ends in the not-found outcome. -/
lemma walkFuel_notFound_of_chain_miss (consumers : List (List Char × Consumer)) :
    ∀ (fuel : Nat) (p : List Char) (trail : List (List Char)) (req : Request),
      absOk p = true → p.length < fuel →
      (∀ q ∈ chainFuel fuel p, lookupCon consumers q = none) →
      walkFuel consumers fuel trail p req = .notFound := by
  intro fuel
  induction fuel with
  | zero => intro p trail req _ hl _; exact absurd hl (Nat.not_lt_zero _)
  | succ f ih =>
      intro p trail req habs hlen hmiss
      have hne : p ≠ [] := by
        intro h0; rw [h0] at habs; simp [absOk] at habs
      have hlook : lookupCon consumers p = none := hmiss p (self_mem_chainFuel hne)
      by_cases hroot : p = ['/']
      · subst hroot
        simp only [walkFuel]
        rw [if_neg hne, hlook]
        simp only []
        simp only [if_true]
        rcases f with _ | f'
        · simp only [List.length_cons, List.length_nil] at hlen
          omega
        · simp [walkFuel]
      · obtain ⟨habs', hprog⟩ := os_path_split_absOk habs hroot
        rw [walkFuel_step_miss hne hlook hroot hprog]
        apply ih _ ((os_path_split p).2 :: trail) req habs' (by omega)
        intro q hq
        apply hmiss
        rw [chainFuel_step hne hroot hprog]
        exact List.mem_cons_of_mem _ hq

lemma os_path_isabs_of_absOk {p : List Char} (h : absOk p = true) :
    os_path_isabs p = true := by
  rcases p with _ | ⟨a, _ | ⟨b, t⟩⟩
  · simp [absOk] at h
  · simpa [absOk, os_path_isabs] using h
  · simp only [absOk, Bool.and_eq_true] at h
    simpa [os_path_isabs] using h.1

/-- Equation: `routeStage` with its local definitions expanded, for rewriting. -/
lemma routeStage_eq (cfg : Config) (r : Request) :
    routeStage cfg r =
      (if os_path_isabs (r.path.getD []) = false then (.httpError 400, r)
       else
        match walkFuel cfg.consumers ((r.path.getD []).length + 1) [] (r.path.getD []) r with
        | .found con r2 => (.ok (con r2), r2)
        | .notFound => (.httpError 404, r)
        | .diverge => (.diverge, r)) := rfl

/-- Decomposition: `pipeline` is the authentication gate followed by `routeStage`. -/
lemma pipeline_eq (cfg : Config) (req : Request) :
    pipeline cfg req =
      (match cfg.authenticators with
       | none => (.httpError 403, req)
       | some authers =>
         if (applyAuths authers req).validAuth ≠ some PyVal.pTrue
         then (.httpError 403, applyAuths authers req)
         else routeStage cfg (applyAuths authers req)) := rfl

lemma pipeline_eq_of_some {cfg : Config} {as : List (List Char × Auth)}
    (h : cfg.authenticators = some as) (req : Request) :
    pipeline cfg req =
      (if (applyAuths as req).validAuth ≠ some PyVal.pTrue
       then (.httpError 403, applyAuths as req)
       else routeStage cfg (applyAuths as req)) := by
  rw [pipeline_eq, h]

/-- On every error branch, `routeStage` leaves the request unchanged. -/
lemma routeStage_snd_of_error {cfg : Config} {r : Request} {code : Nat}
    (h : (routeStage cfg r).1 = .httpError code) : (routeStage cfg r).2 = r := by
  rw [routeStage_eq] at h ⊢
  by_cases hp : os_path_isabs (r.path.getD []) = false
  · rw [if_pos hp]
  · rw [if_neg hp] at h ⊢
    cases hw : walkFuel cfg.consumers ((r.path.getD []).length + 1) [] (r.path.getD []) r with
    | found con r2 => rw [hw] at h; exact PipeOut.noConfusion h
    | notFound => rfl
    | diverge => rw [hw] at h

/-! ## Claims -/

/-- C1: for every request as built by the request handler (which never
pre-sets `valid_auth`), if the authenticator registry is absent or
present but empty, the pipeline raises 403, whatever the credentials and
all other request fields are. -/
theorem claim_C1 (cfg : Config) (creds : PyVal) (command : List Char)
    (path : List Char) (query url : PyVal) (version : List Char)
    (headers : Headers) (body : Option (List Nat))
    (h : cfg.authenticators = none ∨ cfg.authenticators = some []) :
    (pipeline cfg (mkRequest creds command path query url version headers body)).1 =
      PipeOut.httpError 403 := by
  rcases h with h | h
  · rw [pipeline_eq, h]
  · rw [pipeline_eq, h]
    rfl

theorem claim_C1_witness :
    (pipeline { consumers := [], authenticators := some [], server_string := [] }
      (mkRequest PyVal.pNone ("GET".data) ("/secrets".data) PyVal.pNone PyVal.pNone
        [] [] none)).1 = PipeOut.httpError 403 :=
  claim_C1 _ PyVal.pNone ("GET".data) ("/secrets".data) PyVal.pNone PyVal.pNone
    [] [] none (Or.inr rfl)

/-- C2 counterexample: constructing the server with a consumer registry
that is present but empty (the mapping `{}`) succeeds, refuting the
claim that construction fails; `__init__` only tests key presence. -/
theorem claim_C2_counterexample :
    server_init { consumers := some [], authenticators := none, server_string := none } =
      .ok { consumers := [], authenticators := none,
            server_string := defaultServerString } := rfl

/-- C2 amended: construction fails (with the no-consumer ValueError)
exactly when the `'consumers'` key is absent; any present value,
including the empty mapping, is accepted unchanged. -/
theorem claim_C2_amended (rc : RawConfig) :
    (rc.consumers = none → server_init rc = .error noConsumerMsg) ∧
    (∀ cs, rc.consumers = some cs →
      server_init rc =
        .ok { consumers := cs, authenticators := rc.authenticators,
              server_string := rc.server_string.getD defaultServerString }) := by
  constructor
  · intro h; simp [server_init, h]
  · intro cs h; simp [server_init, h]

theorem claim_C2_amended_witness :
    server_init { consumers := some [], authenticators := some [],
                  server_string := some ("x".data) } =
      .ok { consumers := [], authenticators := some [], server_string := "x".data } :=
  (claim_C2_amended _).2 [] rfl

/-- C4: with a configured (non-absent) authenticator registry, the
pipeline applies every authenticator in order (as the fold `applyAuths`
over the whole registry, with no short-circuit), and then proceeds to
the routing stage exactly when the resulting request carries
`valid_auth` strictly equal to the boolean `True`; in every other case
(key absent or any other value, including a truthy `1`) it raises 403. -/
theorem claim_C4 (cfg : Config) (req : Request) (as : List (List Char × Auth))
    (h : cfg.authenticators = some as) :
    pipeline cfg req =
      (if (applyAuths as req).validAuth = some PyVal.pTrue
       then routeStage cfg (applyAuths as req)
       else (PipeOut.httpError 403, applyAuths as req)) := by
  rw [pipeline_eq_of_some h]
  by_cases hv : (applyAuths as req).validAuth = some PyVal.pTrue
  · rw [if_neg (fun hc => hc hv), if_pos hv]
  · rw [if_pos hv, if_neg hv]

theorem claim_C4_witness :
    (pipeline
      { consumers := [],
        authenticators := some
          [("int1".data, fun r => { r with validAuth := some (PyVal.pInt 1) })],
        server_string := [] }
      (mkRequest PyVal.pNone ("GET".data) ("/".data) PyVal.pNone PyVal.pNone
        [] [] none)).1 = PipeOut.httpError 403 := by
  rw [claim_C4 _ _ _ rfl]
  decide

/-- C8: the authentication gate runs before the path-format check: when
the request path (after all authenticators have run) is not absolute,
the pipeline yields 400 if the fully-folded request is authenticated and
403 otherwise — never 400 before every configured authenticator has been
applied. -/
theorem claim_C8 (cfg : Config) (req : Request) (as : List (List Char × Auth))
    (h : cfg.authenticators = some as)
    (hpath : os_path_isabs ((applyAuths as req).path.getD []) = false) :
    (pipeline cfg req).1 =
      (if (applyAuths as req).validAuth = some PyVal.pTrue
       then PipeOut.httpError 400 else PipeOut.httpError 403) := by
  rw [pipeline_eq_of_some h]
  by_cases hv : (applyAuths as req).validAuth = some PyVal.pTrue
  · rw [if_neg (fun hc => hc hv), if_pos hv, routeStage_eq, if_pos hpath]
  · rw [if_pos hv, if_neg hv]

theorem claim_C8_witness :
    (pipeline
      { consumers := [],
        authenticators := some
          [("ok".data, fun r => { r with validAuth := some PyVal.pTrue })],
        server_string := [] }
      (mkRequest PyVal.pNone ("GET".data) ("relative".data) PyVal.pNone PyVal.pNone
        [] [] none)).1 = PipeOut.httpError 400 := by
  rw [claim_C8 _ _ _ rfl (by decide)]
  decide

/-- C9: a content-length header whose value `int()` rejects makes
`parse_body` raise `ValueError`, which the handler's `except HTTPError`
does not catch: the connection handler ends in an uncaught exception and
no status-coded response is produced for the client. -/
theorem claim_C9 (cfg : Config) (creds : PyVal) (command path : List Char)
    (query url : PyVal) (version : List Char) (headers : Headers)
    (rfile : List Nat) (s : List Char)
    (hget : headerGet headers contentLengthKey = some s)
    (hbad : pyInt? s = none) :
    handle_parsed cfg creds command path query url version headers rfile =
      HandlerOutcome.uncaughtValueError := by
  simp only [handle_parsed, parse_body, hget, hbad]

theorem claim_C9_witness :
    handle_parsed { consumers := [], authenticators := none, server_string := [] }
      PyVal.pNone ("POST".data) ("/".data) PyVal.pNone PyVal.pNone []
      [("content-length".data, "abc".data)] [1, 2, 3] =
      HandlerOutcome.uncaughtValueError :=
  claim_C9 _ PyVal.pNone ("POST".data) ("/".data) PyVal.pNone PyVal.pNone []
    [("content-length".data, "abc".data)] [1, 2, 3] ("abc".data) rfl rfl

/-- C10: starting from a request without a `'trail'` key whose
authenticators also leave that key absent, every error outcome of the
pipeline (403, 400 or 404) leaves the request without a `'trail'` key:
the router attaches the trail only immediately before a successful
dispatch, never on an error path. -/
theorem claim_C10 (cfg : Config) (req : Request)
    (hinit : req.trail = none)
    (hauth : ∀ as, cfg.authenticators = some as → (applyAuths as req).trail = none)
    (code : Nat) (hres : (pipeline cfg req).1 = PipeOut.httpError code) :
    (pipeline cfg req).2.trail = none := by
  cases hca : cfg.authenticators with
  | none =>
      rw [pipeline_eq, hca]
      exact hinit
  | some as =>
      have h2 := hauth as hca
      rw [pipeline_eq_of_some hca] at hres ⊢
      by_cases hv : (applyAuths as req).validAuth ≠ some PyVal.pTrue
      · rw [if_pos hv]
        exact h2
      · rw [if_neg hv] at hres ⊢
        rw [routeStage_snd_of_error hres]
        exact h2

theorem claim_C10_witness :
    (pipeline
      { consumers := [],
        authenticators := some
          [("ok".data, fun r => { r with validAuth := some PyVal.pTrue })],
        server_string := [] }
      (mkRequest PyVal.pNone ("GET".data) ("/nope".data) PyVal.pNone PyVal.pNone
        [] [] none)).2.trail = none := by
  apply claim_C10 _ _ rfl _ 404
  · decide
  · intro as h
    injection h with h1
    rw [← h1]
    decide

/-- C7: `parse_body` behaviour as a function of the declared
content length `n`: above the 10 MiB cap it raises 413 having consumed
no bytes of the stream; for `1 ≤ n ≤` cap it returns exactly the first
`n` stream bytes (exactly `n` of them whenever the stream holds at
least `n`); for `n = 0` or a missing header the body is absent. -/
theorem claim_C7 :
    (∀ (headers : Headers) (rfile : List Nat) (s : List Char) (n : Int),
      headerGet headers contentLengthKey = some s → pyInt? s = some n →
      (((MAX_REQUEST_SIZE : Int) < n →
          parse_body headers rfile = (.error (.httpError 413), 0)) ∧
       (1 ≤ n → n ≤ (MAX_REQUEST_SIZE : Int) →
          parse_body headers rfile =
            (.ok (some (rfile.take n.toNat)), (rfile.take n.toNat).length) ∧
          (n.toNat ≤ rfile.length → (rfile.take n.toNat).length = n.toNat)) ∧
       (n = 0 → parse_body headers rfile = (.ok none, 0)))) ∧
    (∀ (headers : Headers) (rfile : List Nat),
      headerGet headers contentLengthKey = none →
      parse_body headers rfile = (.ok none, 0)) := by
  constructor
  · intro headers rfile s n hget hint
    refine ⟨?_, ?_, ?_⟩
    · intro hbig
      simp only [parse_body, hget, hint]
      rw [if_pos hbig]
    · intro h1 h2
      have hpr : pyRead rfile n = rfile.take n.toNat := by
        unfold pyRead
        rw [if_neg (by omega : ¬ n < 0)]
      constructor
      · simp only [parse_body, hget, hint]
        rw [if_neg (not_lt.mpr h2), if_neg (by omega : ¬ n = 0), hpr]
      · intro hle
        rw [List.length_take]
        omega
    · intro h0
      subst h0
      simp only [parse_body, hget, hint]
      simp
  · intro headers rfile hnone
    simp only [parse_body, hnone]

theorem claim_C7_witness :
    parse_body [("Content-Length".data, "10485761".data)] [] =
      (.error (.httpError 413), 0) ∧
    parse_body [("content-length".data, "2".data)] [7, 8, 9] =
      (.ok (some [7, 8]), 2) ∧
    parse_body [] [1] = (.ok none, 0) := by
  refine ⟨?_, ?_, ?_⟩
  · exact (claim_C7.1 _ [] ("10485761".data) 10485761 (by decide) (by decide)).1
      (by decide)
  · have h := ((claim_C7.1 [("content-length".data, "2".data)] [7, 8, 9]
      "2".data 2 (by decide) (by decide)).2).1 (by decide) (by decide)
    rw [h.1]
    decide
  · exact claim_C7.2 [] [1] rfl

lemma isPrefix_singleton_cases {α : Type} {ss : List α} {a : α} (h : ss <+: [a]) :
    ss = [] ∨ ss = [a] := by
  obtain ⟨t, ht⟩ := h
  rcases ss with _ | ⟨x, xs⟩
  · exact Or.inl rfl
  · right
    rcases xs with _ | ⟨y, ys⟩
    · injection ht with h1 _
      rw [h1]
    · exfalso
      have := congrArg List.length ht
      simp only [List.cons_append, List.length_cons, List.length_append,
        List.length_nil] at this
      omega

/-- C5: for a registered prefix `P` and an authenticated request whose
path is `P` followed by the well-formed segments `segs` (no longer
registered prefix matching), the router dispatches to `P`'s consumer;
the request passed to it is unchanged when the path equals `P` exactly
(`segs = []`, no trail attached) and carries `trail = segs` in original
left-to-right order otherwise. -/
theorem claim_C5 (cfg : Config) (req : Request) (as : List (List Char × Auth))
    (P : List Char) (con : Consumer) (segs : List (List Char))
    (h : cfg.authenticators = some as)
    (hv : (applyAuths as req).validAuth = some PyVal.pTrue)
    (hpath : (applyAuths as req).path = some (joinPath P segs))
    (habs : os_path_isabs P = true)
    (hend : segs ≠ [] → endOk P = true)
    (hsegs : ∀ s ∈ segs, s ≠ [] ∧ '/' ∉ s)
    (hfound : lookupCon cfg.consumers P = some con)
    (hmiss : ∀ ss, ss <+: segs → ss ≠ [] →
      lookupCon cfg.consumers (joinPath P ss) = none) :
    pipeline cfg req =
      (PipeOut.ok (con (if segs.isEmpty then applyAuths as req
          else { applyAuths as req with trail := some segs })),
       (if segs.isEmpty then applyAuths as req
          else { applyAuths as req with trail := some segs })) := by
  have hPne : P ≠ [] := by
    intro h0; rw [h0] at habs; simp [os_path_isabs] at habs
  have habs2 : os_path_isabs (joinPath P segs) = true := by
    rw [os_path_isabs_of_isPrefix (joinPath_isPrefix segs P) hPne]
    exact habs
  rw [pipeline_eq_of_some h, if_neg (fun hc => hc hv), routeStage_eq, hpath]
  simp only [Option.getD_some]
  rw [if_neg (by intro hc; rw [habs2] at hc; exact Bool.noConfusion hc)]
  by_cases hnil : segs = []
  · subst hnil
    rw [show joinPath P ([] : List (List Char)) = P from rfl,
      walkFuel_step_found hPne hfound]
  · have hmain := walkFuel_joinPath cfg.consumers P (hend hnil) segs hsegs hmiss
      ((joinPath P segs).length + 1) [] (applyAuths as req) (by omega)
    rw [hmain]
    have hge := joinPath_length_ge segs P
    obtain ⟨m, hm⟩ : ∃ m, (joinPath P segs).length + 1 - segs.length = m + 1 := by
      refine ⟨(joinPath P segs).length - segs.length, ?_⟩
      omega
    rw [List.append_nil, hm, walkFuel_step_found hPne hfound]

theorem claim_C5_witness :
    pipeline
      { consumers := [("/secrets".data, fun _ => (some [] : ConsumerResp))],
        authenticators := some
          [("ok".data, fun r => { r with validAuth := some PyVal.pTrue })],
        server_string := [] }
      (mkRequest PyVal.pNone ("GET".data) ("/secrets/app1".data) PyVal.pNone PyVal.pNone
        [] [] none) =
      (PipeOut.ok (some []),
       { mkRequest PyVal.pNone ("GET".data) ("/secrets/app1".data) PyVal.pNone PyVal.pNone
          [] [] none with
          validAuth := some PyVal.pTrue, trail := some ["app1".data] }) := by
  have h := claim_C5
    { consumers := [("/secrets".data, fun _ => (some [] : ConsumerResp))],
      authenticators := some
        [("ok".data, fun r => { r with validAuth := some PyVal.pTrue })],
      server_string := [] }
    (mkRequest PyVal.pNone ("GET".data) ("/secrets/app1".data) PyVal.pNone PyVal.pNone
      [] [] none)
    [("ok".data, fun r => { r with validAuth := some PyVal.pTrue })]
    "/secrets".data (fun _ => (some [] : ConsumerResp)) ["app1".data]
    rfl rfl rfl (by decide) (fun _ => by decide) (by decide) rfl
    (by
      intro ss hss hne
      rcases isPrefix_singleton_cases hss with h0 | h0
      · exact absurd h0 hne
      · subst h0
        rfl)
  exact h.trans (by decide)

/-- C3: with both `P1` and its descendant `P2 = P1 + "/" + x` registered
and `P2 + "/" + y` itself unregistered, an authenticated request for
`P2 + "/" + y` is dispatched to `P2`'s consumer with `trail = [y]` —
never to `P1`'s: the deepest registered ancestor always wins. -/
theorem claim_C3 (cfg : Config) (req : Request) (as : List (List Char × Auth))
    (P1 x y : List Char) (c1 c2 : Consumer)
    (h : cfg.authenticators = some as)
    (hv : (applyAuths as req).validAuth = some PyVal.pTrue)
    (hx : x ≠ [] ∧ '/' ∉ x) (hy : y ≠ [] ∧ '/' ∉ y)
    (habs : os_path_isabs P1 = true)
    (h1 : lookupCon cfg.consumers P1 = some c1)
    (h2 : lookupCon cfg.consumers (P1 ++ '/' :: x) = some c2)
    (h3 : lookupCon cfg.consumers ((P1 ++ '/' :: x) ++ '/' :: y) = none)
    (hpath : (applyAuths as req).path = some ((P1 ++ '/' :: x) ++ '/' :: y)) :
    pipeline cfg req =
      (PipeOut.ok (c2 { applyAuths as req with trail := some [y] }),
       { applyAuths as req with trail := some [y] }) := by
  have hP1ne : P1 ≠ [] := by
    intro h0; rw [h0] at habs; simp [os_path_isabs] at habs
  have hendP2 : endOk (P1 ++ '/' :: x) = true := endOk_concat hx.1 hx.2
  have hsplit : os_path_split ((P1 ++ '/' :: x) ++ '/' :: y) = (P1 ++ '/' :: x, y) :=
    os_path_split_concat hy.2 hendP2
  have habsQ : os_path_isabs ((P1 ++ '/' :: x) ++ '/' :: y) = true := by
    rw [os_path_isabs_of_isPrefix
      ((List.prefix_append P1 ('/' :: x)).trans
        (List.prefix_append (P1 ++ '/' :: x) ('/' :: y))) hP1ne]
    exact habs
  have hQne : (P1 ++ '/' :: x) ++ '/' :: y ≠ [] := by simp
  have hQroot : (P1 ++ '/' :: x) ++ '/' :: y ≠ ['/'] := by
    intro hc
    have := congrArg List.length hc
    simp only [List.length_append, List.length_cons, List.length_nil] at this
    have : 0 < P1.length := List.length_pos.mpr hP1ne
    omega
  have hprog : (os_path_split ((P1 ++ '/' :: x) ++ '/' :: y)).1.length <
      ((P1 ++ '/' :: x) ++ '/' :: y).length := by
    rw [hsplit]
    simp only [List.length_append, List.length_cons]
    omega
  rw [pipeline_eq_of_some h, if_neg (fun hc => hc hv), routeStage_eq, hpath]
  simp only [Option.getD_some]
  rw [if_neg (by intro hc; rw [habsQ] at hc; exact Bool.noConfusion hc)]
  rw [walkFuel_step_miss hQne h3 hQroot hprog, hsplit]
  have hlen : ((P1 ++ '/' :: x) ++ '/' :: y).length =
      ((P1 ++ '/' :: x).length + y.length) + 1 := by
    rw [List.length_append, List.length_cons]
    omega
  rw [hlen, walkFuel_step_found (by simp : P1 ++ '/' :: x ≠ []) h2]
  rfl

theorem claim_C3_witness :
    pipeline
      { consumers := [("/a".data, fun _ => (some [] : ConsumerResp)),
                      ("/a/b".data, fun _ => (some [("hit".data, PyVal.pTrue)] : ConsumerResp))],
        authenticators := some
          [("ok".data, fun r => { r with validAuth := some PyVal.pTrue })],
        server_string := [] }
      (mkRequest PyVal.pNone ("GET".data) ("/a/b/c".data) PyVal.pNone PyVal.pNone
        [] [] none) =
      (PipeOut.ok (some [("hit".data, PyVal.pTrue)]),
       { mkRequest PyVal.pNone ("GET".data) ("/a/b/c".data) PyVal.pNone PyVal.pNone
          [] [] none with
          validAuth := some PyVal.pTrue, trail := some ["c".data] }) := by
  have h := claim_C3
    { consumers := [("/a".data, fun _ => (some [] : ConsumerResp)),
                    ("/a/b".data, fun _ => (some [("hit".data, PyVal.pTrue)] : ConsumerResp))],
      authenticators := some
        [("ok".data, fun r => { r with validAuth := some PyVal.pTrue })],
      server_string := [] }
    (mkRequest PyVal.pNone ("GET".data) ("/a/b/c".data) PyVal.pNone PyVal.pNone
      [] [] none)
    [("ok".data, fun r => { r with validAuth := some PyVal.pTrue })]
    "/a".data ("b".data) ("c".data)
    (fun _ => (some [] : ConsumerResp))
    (fun _ => (some [("hit".data, PyVal.pTrue)] : ConsumerResp))
    rfl rfl (by decide) (by decide) (by decide) rfl rfl rfl rfl
  exact h.trans (by decide)

/-- C6 amended: for an authenticated request whose path is absolute and
does not begin with a double slash, if no registered prefix equals the
path or any of its iterated parents (root included), the pipeline raises
404.  (The restriction is forced: on an absolute path beginning with
`//` that never matches, the source loop runs forever instead — see the
counterexample and `os_path_split_fixpoint_of_no_progress`.) -/
theorem claim_C6_amended (cfg : Config) (req : Request)
    (as : List (List Char × Auth))
    (h : cfg.authenticators = some as)
    (hv : (applyAuths as req).validAuth = some PyVal.pTrue)
    (habs : absOk ((applyAuths as req).path.getD []) = true)
    (hmiss : ∀ q ∈ ancestorChain ((applyAuths as req).path.getD []),
      lookupCon cfg.consumers q = none) :
    (pipeline cfg req).1 = PipeOut.httpError 404 := by
  rw [pipeline_eq_of_some h, if_neg (fun hc => hc hv), routeStage_eq]
  have hab : os_path_isabs ((applyAuths as req).path.getD []) = true :=
    os_path_isabs_of_absOk habs
  rw [if_neg (by intro hc; rw [hab] at hc; exact Bool.noConfusion hc)]
  rw [walkFuel_notFound_of_chain_miss cfg.consumers _ _ [] _ habs (by omega) hmiss]

theorem claim_C6_amended_witness :
    (pipeline
      { consumers := [("/a".data, fun _ => (some [] : ConsumerResp))],
        authenticators := some
          [("ok".data, fun r => { r with validAuth := some PyVal.pTrue })],
        server_string := [] }
      (mkRequest PyVal.pNone ("GET".data) ("/x/y".data) PyVal.pNone PyVal.pNone
        [] [] none)).1 = PipeOut.httpError 404 := by
  apply claim_C6_amended _ _
    [("ok".data, fun r => { r with validAuth := some PyVal.pTrue })]
    rfl rfl (by decide)
  intro q hq
  have hq2 : q ∈ ["/x/y".data, "/x".data, "/".data] := hq
  simp only [List.mem_cons, List.not_mem_nil, or_false] at hq2
  rcases hq2 with h0 | h0 | h0 <;> (subst h0; rfl)

/-- C6 counterexample: the path `"//x"` is absolute and no prefix at all
is registered (the registry is empty), yet the authenticated pipeline
does not fail with 404: the selection loop reaches the no-progress state
`"//"` and runs forever. -/
theorem claim_C6_counterexample :
    (pipeline
      { consumers := [],
        authenticators := some
          [("ok".data, fun r => { r with validAuth := some PyVal.pTrue })],
        server_string := [] }
      (mkRequest PyVal.pNone ("GET".data) ("//x".data) PyVal.pNone PyVal.pNone
        [] [] none)).1 = PipeOut.diverge ∧
    ¬ (pipeline
      { consumers := [],
        authenticators := some
          [("ok".data, fun r => { r with validAuth := some PyVal.pTrue })],
        server_string := [] }
      (mkRequest PyVal.pNone ("GET".data) ("//x".data) PyVal.pNone PyVal.pNone
        [] [] none)).1 = PipeOut.httpError 404 := by
  constructor
  · decide
  · decide

/-- The fold over the authenticator registry never short-circuits:
running a registry split into two parts is running the first part and
then the second on its result, so every authenticator is applied even
after an earlier one has granted access. -/
lemma applyAuths_append (l1 l2 : List (List Char × Auth)) (req : Request) :
    applyAuths (l1 ++ l2) req = applyAuths l2 (applyAuths l1 req) :=
  List.foldl_append _ _ l1 l2

/-- The walk's result does not depend on the fuel, as long as the fuel
exceeds the path length (as the fuel passed by `pipeline` always does):
the fuel is an artefact of the embedding, not of the source loop. -/
lemma walkFuel_congr (consumers : List (List Char × Consumer)) :
    ∀ (f g : Nat) (trail : List (List Char)) (path : List Char) (req : Request),
      path.length < f → path.length < g →
      walkFuel consumers f trail path req = walkFuel consumers g trail path req := by
  intro f
  induction f with
  | zero => intro g trail path req hf _; exact absurd hf (Nat.not_lt_zero _)
  | succ f ih =>
      intro g trail path req hf hg
      rcases g with _ | g
      · exact absurd hg (Nat.not_lt_zero _)
      by_cases hne : path = []
      · subst hne
        simp [walkFuel]
      cases hlook : lookupCon consumers path with
      | some con => rw [walkFuel_step_found hne hlook, walkFuel_step_found hne hlook]
      | none =>
          by_cases hroot : path = ['/']
          · subst hroot
            have hstep : ∀ k, 0 < k →
                walkFuel consumers k trail ([] : List Char) req = .notFound := by
              intro k hk
              rcases k with _ | k
              · exact absurd hk (Nat.lt_irrefl 0)
              · simp [walkFuel]
            have hone : ∀ k, 1 < k + 1 →
                walkFuel consumers (k + 1) trail ['/'] req = .notFound := by
              intro k hk
              simp only [walkFuel]
              rw [if_neg hne, hlook]
              simp only []
              simp only [if_true]
              exact hstep k (by omega)
            rw [hone f (by simpa using hf), hone g (by simpa using hg)]
          · by_cases hprog : (os_path_split path).1.length < path.length
            · rw [walkFuel_step_miss hne hlook hroot hprog,
                walkFuel_step_miss hne hlook hroot hprog]
              exact ih g _ _ req (by omega) (by omega)
            · simp only [walkFuel]
              rw [if_neg hne, hlook]
              simp only []
              rw [if_neg hroot, if_neg hprog]
              rw [if_neg hne, if_neg hroot, if_neg hprog]
